import Mathlib

/-!
Shallow embedding of the rate-limit storage backends and cache-key helpers
of the hono-crud repository, with theorems checking the specification's
claims against the code.

Times are modelled as `Int` (JavaScript millisecond timestamps), counters as
`Nat`, and the two in-process maps of `MemoryRateLimitStorage` as functions
`String → Option _` updated pointwise.  `Date.now()` is passed explicitly as
a `now` argument, so every operation is a pure state transformer.
-/

/-- `FixedWindowEntry` from src/rate-limit/types: `{count, windowStart}`. -/
structure FixedWindowEntry where
  count : Nat
  windowStart : Int
deriving DecidableEq, Repr

/-- `SlidingWindowEntry` from src/rate-limit/types: `{timestamps}`. -/
structure SlidingWindowEntry where
  timestamps : List Int
deriving DecidableEq, Repr

/-- `RateLimitEntry = FixedWindowEntry | SlidingWindowEntry`; consumers
discriminate by the presence of `count` vs `timestamps`, modelled as a sum. -/
inductive RateLimitEntry where
  | fixed : FixedWindowEntry → RateLimitEntry
  | sliding : SlidingWindowEntry → RateLimitEntry
deriving DecidableEq, Repr

/-- Pointwise update of a map, modelling `Map.prototype.set`. -/
def setAt {V : Type} (m : String → Option V) (k : String) (v : V) :
    String → Option V :=
  fun k' => if k' = k then some v else m k'

/-- Pointwise deletion from a map, modelling `Map.prototype.delete`. -/
def delAt {V : Type} (m : String → Option V) (k : String) :
    String → Option V :=
  fun k' => if k' = k then none else m k'

/-- The two private maps of `MemoryRateLimitStorage`:
`storage : Map<string, RateLimitEntry>` and
`expirations : Map<string, number>`. -/
structure MemState where
  storage : String → Option RateLimitEntry
  expirations : String → Option Int

/-- The state of a fresh `MemoryRateLimitStorage` instance: both maps empty. -/
def emptyMem : MemState :=
  { storage := fun _ => none, expirations := fun _ => none }

namespace MemoryRateLimitStorage

/-- `MemoryRateLimitStorage.increment` (memory.ts lines 67-92): if a
`FixedWindowEntry` exists and `now < windowStart + windowMs`, bump `count`
in place (the stored object is mutated, so the map now holds the bumped
entry; `expirations` is untouched); otherwise store a fresh
`{count: 1, windowStart: now}` and set the expiration to `now + windowMs`. -/
def increment (s : MemState) (key : String) (windowMs now : Int) :
    FixedWindowEntry × MemState :=
  let fresh : FixedWindowEntry := { count := 1, windowStart := now }
  let freshState : MemState :=
    { storage := setAt s.storage key (.fixed fresh),
      expirations := setAt s.expirations key (now + windowMs) }
  match s.storage key with
  | some (.fixed existing) =>
    if now < existing.windowStart + windowMs then
      let e : FixedWindowEntry :=
        { count := existing.count + 1, windowStart := existing.windowStart }
      (e, { s with storage := setAt s.storage key (.fixed e) })
    else
      (fresh, freshState)
  | _ => (fresh, freshState)

/-- `MemoryRateLimitStorage.addTimestamp` (memory.ts lines 98-121): filter the
existing timestamps to those `> now - windowMs`, append `now` (creating the
entry when absent), and set the expiration to `now + windowMs`. -/
def addTimestamp (s : MemState) (key : String) (windowMs now : Int) :
    SlidingWindowEntry × MemState :=
  let windowStart := now - windowMs
  match s.storage key with
  | some (.sliding existing) =>
    let timestamps := existing.timestamps.filter (fun t => windowStart < t) ++ [now]
    (⟨timestamps⟩,
      { storage := setAt s.storage key (.sliding ⟨timestamps⟩),
        expirations := setAt s.expirations key (now + windowMs) })
  | _ =>
    let timestamps := [now]
    (⟨timestamps⟩,
      { storage := setAt s.storage key (.sliding ⟨timestamps⟩),
        expirations := setAt s.expirations key (now + windowMs) })

/-- `MemoryRateLimitStorage.get` (memory.ts lines 126-142): absent key reads
as `null`; an entry whose recorded expiration is truthy (nonzero) and
strictly past is deleted from both maps and reads as `null`. -/
def get (s : MemState) (key : String) (now : Int) :
    Option RateLimitEntry × MemState :=
  match s.storage key with
  | none => (none, s)
  | some entry =>
    match s.expirations key with
    | some expiration =>
      if expiration ≠ 0 ∧ now > expiration then
        (none, { storage := delAt s.storage key,
                 expirations := delAt s.expirations key })
      else
        (some entry, s)
    | none => (some entry, s)

/-- `MemoryRateLimitStorage.reset` (memory.ts lines 147-150): delete the key
from both maps. -/
def reset (s : MemState) (key : String) : MemState :=
  { storage := delAt s.storage key, expirations := delAt s.expirations key }

end MemoryRateLimitStorage

theorem setAt_self {V : Type} (m : String → Option V) (k : String) (v : V) :
    setAt m k v k = some v := by
  simp [setAt]

theorem setAt_ne {V : Type} (m : String → Option V) (k k' : String) (v : V)
    (h : k' ≠ k) : setAt m k v k' = m k' := by
  simp [setAt, h]

theorem delAt_self {V : Type} (m : String → Option V) (k : String) :
    delAt m k k = none := by
  simp [delAt]

theorem delAt_ne {V : Type} (m : String → Option V) (k k' : String)
    (h : k' ≠ k) : delAt m k k' = m k' := by
  simp [delAt, h]

/-- C2: `increment` bumps the count of a live fixed-window entry in place
(window start unchanged); on a missing entry, or once
`now ≥ windowStart + windowMs` — including the exact boundary instant — it
starts a fresh window `{count: 1, windowStart: now}` (strict `<` check). -/
theorem increment_window_semantics (s : MemState) (k : String) (W now : Int)
    (hW : 0 < W) :
    (∀ e, s.storage k = some (.fixed e) → now < e.windowStart + W →
      (MemoryRateLimitStorage.increment s k W now).1 =
        ⟨e.count + 1, e.windowStart⟩ ∧
      (MemoryRateLimitStorage.increment s k W now).2.storage k =
        some (.fixed ⟨e.count + 1, e.windowStart⟩) ∧
      (MemoryRateLimitStorage.increment s k W now).2.expirations =
        s.expirations) ∧
    (s.storage k = none →
      (MemoryRateLimitStorage.increment s k W now).1 = ⟨1, now⟩) ∧
    (∀ e, s.storage k = some (.fixed e) → e.windowStart + W ≤ now →
      (MemoryRateLimitStorage.increment s k W now).1 = ⟨1, now⟩) := by
  refine ⟨?_, ?_, ?_⟩
  · intro e he hin
    simp [MemoryRateLimitStorage.increment, he, hin, setAt_self]
  · intro he
    simp [MemoryRateLimitStorage.increment, he]
  · intro e he hout
    have : ¬ now < e.windowStart + W := by omega
    simp [MemoryRateLimitStorage.increment, he, this]

/-- Closed witness for `increment_window_semantics` at a concrete state. -/
theorem increment_window_semantics_witness :
    (MemoryRateLimitStorage.increment
        { storage := setAt emptyMem.storage "k" (.fixed ⟨2, 100⟩),
          expirations := setAt emptyMem.expirations "k" (1100 : Int) }
        "k" 1000 600).1 = ⟨3, 100⟩ := by
  have h := increment_window_semantics
    { storage := setAt emptyMem.storage "k" (.fixed ⟨2, 100⟩),
      expirations := setAt emptyMem.expirations "k" (1100 : Int) }
    "k" 1000 600 (by decide)
  exact (h.1 ⟨2, 100⟩ (by simp [setAt_self]) (by decide)).1

/-- C4: immediately after `addTimestamp`, the returned (and stored) timestamp
list contains no element `≤ now - windowMs` and does contain `now`. -/
theorem addTimestamp_pruned (s : MemState) (k : String) (W now : Int)
    (hW : 0 < W) :
    (∀ t ∈ (MemoryRateLimitStorage.addTimestamp s k W now).1.timestamps,
        now - W < t) ∧
    now ∈ (MemoryRateLimitStorage.addTimestamp s k W now).1.timestamps ∧
    (MemoryRateLimitStorage.addTimestamp s k W now).2.storage k =
      some (.sliding (MemoryRateLimitStorage.addTimestamp s k W now).1) := by
  unfold MemoryRateLimitStorage.addTimestamp
  split
  · next existing heq =>
    refine ⟨?_, ?_, ?_⟩
    · intro t ht
      rcases List.mem_append.1 ht with h | h
      · exact of_decide_eq_true (List.mem_filter.1 h).2
      · simp only [List.mem_singleton] at h
        omega
    · exact List.mem_append_right _ (List.mem_singleton.2 rfl)
    · simp [setAt_self]
  · next hne =>
    refine ⟨?_, ?_, ?_⟩
    · intro t ht
      simp only [List.mem_singleton] at ht
      omega
    · exact List.mem_singleton.2 rfl
    · simp [setAt_self]

/-- Closed witness for `addTimestamp_pruned` at a concrete state. -/
theorem addTimestamp_pruned_witness :
    0 ∈ (MemoryRateLimitStorage.addTimestamp emptyMem "k" 1000 0).1.timestamps := by
  exact (addTimestamp_pruned emptyMem "k" 1000 0 (by decide)).2.1

/-- C5: `reset(key)` followed immediately by `increment(key, windowMs)` yields
`{count: 1, windowStart: now}`, identical to `increment` on any state where
the key was never written. -/
theorem reset_then_increment (s : MemState) (k : String) (W now : Int)
    (hW : 0 < W) :
    (MemoryRateLimitStorage.increment (MemoryRateLimitStorage.reset s k)
        k W now).1 = ⟨1, now⟩ ∧
    (∀ s₂ : MemState, s₂.storage k = none →
      (MemoryRateLimitStorage.increment s₂ k W now).1 = ⟨1, now⟩) := by
  constructor
  · simp [MemoryRateLimitStorage.increment, MemoryRateLimitStorage.reset,
      delAt_self]
  · intro s₂ h
    simp [MemoryRateLimitStorage.increment, h]

/-- Closed witness for `reset_then_increment` at a concrete state. -/
theorem reset_then_increment_witness :
    (MemoryRateLimitStorage.increment
        (MemoryRateLimitStorage.reset
          { storage := setAt emptyMem.storage "k" (.fixed ⟨7, 0⟩),
            expirations := setAt emptyMem.expirations "k" (50 : Int) } "k")
        "k" 1000 1234).1 = ⟨1, 1234⟩ := by
  exact (reset_then_increment
    { storage := setAt emptyMem.storage "k" (.fixed ⟨7, 0⟩),
      expirations := setAt emptyMem.expirations "k" (50 : Int) }
    "k" 1000 1234 (by decide)).1

/-- C9: `increment`, `addTimestamp` and `reset` on key `k` leave both the
stored entry and the stored expiration of any other key `k'` unchanged. -/
theorem frame_other_keys (s : MemState) (k k' : String) (W now t : Int)
    (hne : k' ≠ k) :
    ((MemoryRateLimitStorage.increment s k W now).2.storage k' = s.storage k' ∧
     (MemoryRateLimitStorage.increment s k W now).2.expirations k' =
       s.expirations k') ∧
    ((MemoryRateLimitStorage.addTimestamp s k W t).2.storage k' =
       s.storage k' ∧
     (MemoryRateLimitStorage.addTimestamp s k W t).2.expirations k' =
       s.expirations k') ∧
    ((MemoryRateLimitStorage.reset s k).storage k' = s.storage k' ∧
     (MemoryRateLimitStorage.reset s k).expirations k' = s.expirations k') := by
  refine ⟨?_, ?_, ?_⟩
  · unfold MemoryRateLimitStorage.increment
    split
    · next existing heq =>
      by_cases h : now < existing.windowStart + W <;>
        simp [h, setAt_ne _ _ _ _ hne]
    · simp [setAt_ne _ _ _ _ hne]
  · unfold MemoryRateLimitStorage.addTimestamp
    split <;> simp [setAt_ne _ _ _ _ hne]
  · exact ⟨delAt_ne _ _ _ hne, delAt_ne _ _ _ hne⟩

/-- Closed witness for `frame_other_keys` at concrete distinct keys. -/
theorem frame_other_keys_witness :
    (MemoryRateLimitStorage.increment emptyMem "b" 1000 0).2.storage "a" =
      emptyMem.storage "a" := by
  exact (frame_other_keys emptyMem "b" "a" 1000 0 0 (by decide)).1.1

/-- C10: if the recorded expiration of a key equals
`windowStart + windowMs` of its fixed-window entry, `increment` preserves
that relation; an in-window increment mutates only `count` — the window
start and the whole expiration map are untouched — and a fresh window
re-establishes the relation with `expiration = now + windowMs`. -/
theorem increment_expiration_invariant (s : MemState) (k : String)
    (W now : Int) :
    (∀ e, s.storage k = some (.fixed e) →
      s.expirations k = some (e.windowStart + W) →
      (∃ e', (MemoryRateLimitStorage.increment s k W now).2.storage k =
          some (.fixed e') ∧
        (MemoryRateLimitStorage.increment s k W now).2.expirations k =
          some (e'.windowStart + W)) ∧
      (now < e.windowStart + W →
        (MemoryRateLimitStorage.increment s k W now).1 =
          ⟨e.count + 1, e.windowStart⟩ ∧
        (MemoryRateLimitStorage.increment s k W now).2.expirations =
          s.expirations)) ∧
    (s.storage k = none →
      (MemoryRateLimitStorage.increment s k W now).2.storage k =
        some (.fixed ⟨1, now⟩) ∧
      (MemoryRateLimitStorage.increment s k W now).2.expirations k =
        some (now + W)) := by
  constructor
  · intro e he hexp
    constructor
    · by_cases h : now < e.windowStart + W
      · refine ⟨⟨e.count + 1, e.windowStart⟩, ?_, ?_⟩
        · simp [MemoryRateLimitStorage.increment, he, h, setAt_self]
        · simp [MemoryRateLimitStorage.increment, he, h, hexp]
      · refine ⟨⟨1, now⟩, ?_, ?_⟩
        · simp [MemoryRateLimitStorage.increment, he, h, setAt_self]
        · simp [MemoryRateLimitStorage.increment, he, h, setAt_self]
    · intro h
      simp [MemoryRateLimitStorage.increment, he, h]
  · intro he
    simp [MemoryRateLimitStorage.increment, he, setAt_self]

/-- Closed witness for `increment_expiration_invariant` at a concrete state. -/
theorem increment_expiration_invariant_witness :
    (MemoryRateLimitStorage.increment
        { storage := setAt emptyMem.storage "k" (.fixed ⟨4, 100⟩),
          expirations := setAt emptyMem.expirations "k" (1100 : Int) }
        "k" 1000 500).1 = ⟨5, 100⟩ := by
  have h := increment_expiration_invariant
    { storage := setAt emptyMem.storage "k" (.fixed ⟨4, 100⟩),
      expirations := setAt emptyMem.expirations "k" (1100 : Int) }
    "k" 1000 500
  exact ((h.1 ⟨4, 100⟩ (by simp [setAt_self])
    (by simp [setAt_self])).2 (by decide)).1

/-- C7 counterexample: a directly stored pruned-empty sliding entry
`{timestamps: []}` with no recorded expiration is returned by `get` as-is —
it does not read as absent, so the claim's pruned-empty clause fails on the
code (`get` only checks presence and expiry, and a stored empty-timestamps
object is truthy). -/
theorem get_pruned_empty_counterexample :
    (MemoryRateLimitStorage.get
        { storage := setAt emptyMem.storage "k" (.sliding ⟨[]⟩),
          expirations := emptyMem.expirations }
        "k" 100).1 = some (.sliding ⟨[]⟩) ∧
    (MemoryRateLimitStorage.get
        { storage := setAt emptyMem.storage "k" (.sliding ⟨[]⟩),
          expirations := emptyMem.expirations }
        "k" 100).1 ≠ none := by
  refine ⟨by decide, by decide⟩

/-- C7 (amended): `get` returns `null` on an absent key, and on a key whose
recorded (positive) expiration is strictly past it deletes the stale entry
from both maps and returns `null` — it never returns an entry whose expiry
has passed.  The pruned-empty clause of the original claim is dropped: `get`
would return a stored `{timestamps: []}` entry as-is, but `addTimestamp`
always stores the just-appended `now`, so a pruned-empty entry never arises
through the API (third conjunct).  (Recorded expirations are always
`now + windowMs > 0`; the code's truthiness guard `if (expiration && ...)`
is modelled by the `0 < exp` hypothesis.) -/
theorem get_expiry_semantics (s : MemState) (k : String) (now : Int) :
    (s.storage k = none → MemoryRateLimitStorage.get s k now = (none, s)) ∧
    (∀ e exp, s.storage k = some e → s.expirations k = some exp →
      0 < exp → exp < now →
      (MemoryRateLimitStorage.get s k now).1 = none ∧
      (MemoryRateLimitStorage.get s k now).2.storage k = none ∧
      (MemoryRateLimitStorage.get s k now).2.expirations k = none) ∧
    (∀ W t, (MemoryRateLimitStorage.addTimestamp s k W t).1.timestamps ≠ [] ∧
      (MemoryRateLimitStorage.addTimestamp s k W t).2.storage k =
        some (.sliding (MemoryRateLimitStorage.addTimestamp s k W t).1)) := by
  refine ⟨?_, ?_, ?_⟩
  · intro h
    simp [MemoryRateLimitStorage.get, h]
  · intro e exp he hexp hpos hpast
    have hcond : exp ≠ 0 ∧ now > exp := ⟨by omega, by omega⟩
    refine ⟨?_, ?_, ?_⟩ <;>
      simp [MemoryRateLimitStorage.get, he, hexp, hcond, delAt_self]
  · intro W t
    unfold MemoryRateLimitStorage.addTimestamp
    split <;> simp [setAt_self]

/-- Closed witness for `get_expiry_semantics` at a concrete stale state. -/
theorem get_expiry_semantics_witness :
    (MemoryRateLimitStorage.get
        { storage := setAt emptyMem.storage "k" (.fixed ⟨1, 0⟩),
          expirations := setAt emptyMem.expirations "k" (10 : Int) }
        "k" 11).1 = none := by
  exact ((get_expiry_semantics
    { storage := setAt emptyMem.storage "k" (.fixed ⟨1, 0⟩),
      expirations := setAt emptyMem.expirations "k" (10 : Int) }
    "k" 11).2.1 (.fixed ⟨1, 0⟩) 10 (by simp [setAt_self])
    (by simp [setAt_self]) (by decide) (by decide)).1

/-- A sequence of `increment` calls on one key, threading the storage state;
each element of `times` is the `Date.now()` of one call. -/
def incrementRun (k : String) (W : Int) :
    MemState → List Int → List FixedWindowEntry × MemState
  | s, [] => ([], s)
  | s, t :: ts =>
    let r := MemoryRateLimitStorage.increment s k W t
    let rest := incrementRun k W r.2 ts
    (r.1 :: rest.1, rest.2)

/-- Modelled from the spec: the Limiter Engine's fixed-window decision rule
(the engine itself is not among the provided sources) —
`allowed = entry.count <= limit`. -/
def fixedAllowed (e : FixedWindowEntry) (limit : Nat) : Bool :=
  e.count ≤ limit

theorem incrementRun_inWindow (k : String) (W t₀ : Int) :
    ∀ (ts : List Int) (s : MemState) (c : Nat),
      s.storage k = some (.fixed ⟨c, t₀⟩) → (∀ t ∈ ts, t < t₀ + W) →
      (incrementRun k W s ts).1.map FixedWindowEntry.count =
        List.range' (c + 1) ts.length := by
  intro ts
  induction ts with
  | nil => intro s c _ _; simp [incrementRun]
  | cons t ts ih =>
    intro s c hs hin
    have hin₀ : t < t₀ + W := hin t (List.mem_cons_self t ts)
    have hstep :
        MemoryRateLimitStorage.increment s k W t =
          (⟨c + 1, t₀⟩,
            { s with storage := setAt s.storage k (.fixed ⟨c + 1, t₀⟩) }) := by
      simp [MemoryRateLimitStorage.increment, hs, hin₀]
    have hs' :
        (MemoryRateLimitStorage.increment s k W t).2.storage k =
          some (.fixed ⟨c + 1, t₀⟩) := by
      rw [hstep]; exact setAt_self _ _ _
    have htail := ih (MemoryRateLimitStorage.increment s k W t).2 (c + 1) hs'
      (fun t' ht' => hin t' (List.mem_cons_of_mem _ ht'))
    simp only [incrementRun, List.map_cons, htail, List.length_cons]
    rw [hstep]
    simp [List.range'_succ]

theorem countP_range'_le (L : Nat) :
    ∀ N : Nat, (List.range' 1 N).countP (fun i => i ≤ L) = min N L := by
  intro N
  induction N with
  | zero => simp
  | succ n ih =>
    rw [List.range'_1_concat, List.countP_append, ih]
    have hcons : List.countP (fun i => decide (i ≤ L)) [1 + n] =
        if 1 + n ≤ L then 1 else 0 := by
      by_cases h : 1 + n ≤ L <;> simp [List.countP_cons, h]
    rw [hcons]
    rcases le_or_lt (1 + n) L with h | h
    · rw [if_pos h, Nat.min_eq_left (by omega), Nat.min_eq_left (by omega)]
    · rw [if_neg (by omega), Nat.min_eq_right (by omega),
        Nat.min_eq_right (by omega)]
      omega

/-- C1: starting from a fresh fixed-window key, `N ≥ 1` increments whose call
times all lie strictly before the first call's `windowStart + windowMs`
return counts `1, 2, ..., N` in order, so under the engine rule
`allowed = count ≤ limit` exactly `min N L` of them are allowed. -/
theorem fixed_window_min_allowed (s : MemState) (k : String) (W : Int)
    (L : Nat) (times : List Int) (t₀ : Int)
    (h0 : s.storage k = none) (hhead : times.head? = some t₀)
    (hin : ∀ t ∈ times, t < t₀ + W) (hL : 1 ≤ L) :
    (incrementRun k W s times).1.map FixedWindowEntry.count =
      List.range' 1 times.length ∧
    ((incrementRun k W s times).1.countP (fun e => fixedAllowed e L)) =
      min times.length L := by
  obtain ⟨ts, rfl⟩ : ∃ ts', times = t₀ :: ts' := by
    rcases times with _ | ⟨t, ts⟩
    · simp at hhead
    · refine ⟨ts, ?_⟩
      have ht : t = t₀ := by simpa using hhead
      rw [ht]
  have hstep :
      MemoryRateLimitStorage.increment s k W t₀ =
        (⟨1, t₀⟩,
          { storage := setAt s.storage k (.fixed ⟨1, t₀⟩),
            expirations := setAt s.expirations k (t₀ + W) }) := by
    simp [MemoryRateLimitStorage.increment, h0]
  have hs' :
      (MemoryRateLimitStorage.increment s k W t₀).2.storage k =
        some (.fixed ⟨1, t₀⟩) := by
    rw [hstep]; exact setAt_self _ _ _
  have htail := incrementRun_inWindow k W t₀ ts
    (MemoryRateLimitStorage.increment s k W t₀).2 1 hs'
    (fun t' ht' => hin t' (List.mem_cons_of_mem _ ht'))
  have hmap :
      (incrementRun k W s (t₀ :: ts)).1.map FixedWindowEntry.count =
        List.range' 1 (ts.length + 1) := by
    simp only [incrementRun, List.map_cons, htail]
    rw [hstep]
    simp [List.range'_succ]
  refine ⟨by simpa using hmap, ?_⟩
  have hcount :
      ((incrementRun k W s (t₀ :: ts)).1.countP (fun e => fixedAllowed e L)) =
        ((incrementRun k W s (t₀ :: ts)).1.map
          FixedWindowEntry.count).countP (fun n => n ≤ L) := by
    rw [List.countP_map]
    rfl
  rw [hcount, hmap, countP_range'_le]
  simp

/-- Closed witness for `fixed_window_min_allowed`: three in-window calls with
limit 2 allow exactly `min 3 2 = 2` requests. -/
theorem fixed_window_min_allowed_witness :
    ((incrementRun "k" 1000 emptyMem [0, 1, 2]).1.countP
      (fun e => fixedAllowed e 2)) = min 3 2 := by
  have h := fixed_window_min_allowed emptyMem "k" 1000 2 [0, 1, 2] 0
    rfl rfl (by decide) (by decide)
  simpa using h.2

/-- A sequence of `addTimestamp` calls on one key, threading the storage
state; each element of `times` is the arrival time of one request. -/
def addTimestampRun (k : String) (W : Int) :
    MemState → List Int → List SlidingWindowEntry × MemState
  | s, [] => ([], s)
  | s, t :: ts =>
    let r := MemoryRateLimitStorage.addTimestamp s k W t
    let rest := addTimestampRun k W r.2 ts
    (r.1 :: rest.1, rest.2)

/-- Modelled from the spec: the Limiter Engine's sliding-window decision rule
(the engine itself is not among the provided sources) —
`allowed = timestamps.length <= limit`. -/
def slidingAllowed (e : SlidingWindowEntry) (limit : Nat) : Bool :=
  e.timestamps.length ≤ limit

/-- C3 counterexample: with limit 2 and windowMs 1000, requests at
t = 0, 500, 999, 1001 on a fresh key decide allowed, allowed, denied,
denied — not allowed at t = 1001 as claimed: the denied request at t = 999
also recorded its timestamp, so after pruning t = 0 the window still holds
[500, 999, 1001], and 3 > 2. -/
theorem sliding_scenario_counterexample :
    ((addTimestampRun "k" 1000 emptyMem [0, 500, 999, 1001]).1.map
        (fun e => slidingAllowed e 2)) ≠ [true, true, false, true] ∧
    ((addTimestampRun "k" 1000 emptyMem [0, 500, 999, 1001]).1.map
        (fun e => slidingAllowed e 2)) = [true, true, false, false] := by
  constructor
  · decide
  · decide

/-- C3 amended: with limit 2 and windowMs 1000, requests at
t = 0, 500, 999, 1001 on a fresh key decide allowed, allowed, denied, denied;
at t = 1001 the t = 0 timestamp has been pruned but 500, 999 and 1001 remain. -/
theorem sliding_scenario_amended :
    ((addTimestampRun "k" 1000 emptyMem [0, 500, 999, 1001]).1.map
        (fun e => slidingAllowed e 2)) = [true, true, false, false] ∧
    (addTimestampRun "k" 1000 emptyMem [0, 500, 999, 1001]).1.getLast? =
      some ⟨[500, 999, 1001]⟩ := by
  constructor
  · decide
  · decide

/-- The environment a `RedisRateLimitStorage` instance runs against: whether
the client object has an `eval` method, whether the `eval('return 1')` probe
succeeds, and whether the client has the sorted-set methods
(`zadd`/`zremrangebyscore`/`zrangebyscore`). -/
structure RedisEnv where
  hasEval : Bool
  probeOk : Bool
  hasZops : Bool
deriving DecidableEq, Repr

/-- The mutable state of a `RedisRateLimitStorage` instance relevant to
scripting detection: the cached `hasLua` flag (`null` until first probed) and
a count of capability probes actually sent to the client. -/
structure RedisState where
  hasLua : Option Bool
  probes : Nat
deriving DecidableEq, Repr

/-- `RedisRateLimitStorage.checkLuaSupport` (lines 139-157): return the
cached flag when set; otherwise answer `false` without probing when the
client has no `eval`, else run the probe once and cache its outcome. -/
def checkLuaSupport (env : RedisEnv) (s : RedisState) : Bool × RedisState :=
  match s.hasLua with
  | some b => (b, s)
  | none =>
    if env.hasEval then
      if env.probeOk then
        (true, { hasLua := some true, probes := s.probes + 1 })
      else
        (false, { hasLua := some false, probes := s.probes + 1 })
    else
      (false, { s with hasLua := some false })

/-- Which implementation path a storage operation enters. -/
inductive RedisPath where
  | scripted : RedisPath
  | fallback : RedisPath
deriving DecidableEq, Repr

/-- The path dispatch of `RedisRateLimitStorage.increment` (lines 162-206):
attempt the Lua script exactly when `checkLuaSupport` answers `true`,
otherwise use the non-atomic get/set fallback. -/
def incrementPath (env : RedisEnv) (s : RedisState) : RedisPath × RedisState :=
  let r := checkLuaSupport env s
  if r.1 then (.scripted, r.2) else (.fallback, r.2)

/-- The path dispatch of `RedisRateLimitStorage.addTimestamp`
(lines 211-265): with sorted-set support, attempt the Lua script exactly when
`checkLuaSupport` answers `true`; otherwise (non-scripted sorted-set calls or
JSON storage) a non-scripted path. -/
def addTimestampPath (env : RedisEnv) (s : RedisState) :
    RedisPath × RedisState :=
  if env.hasZops then
    let r := checkLuaSupport env s
    if r.1 then (.scripted, r.2) else (.fallback, r.2)
  else
    (.fallback, s)

/-- C6: from a fresh instance (`hasLua = null`), the capability probe runs at
most once: the first `checkLuaSupport` call settles the cached flag, every
later call returns the cached value with no state change and no further
probe, and when the client lacks `eval` or the probe fails the cache is
`false`, after which `increment` and `addTimestamp` take the non-scripted
fallback path forever (the state never changes again). -/
theorem lua_probe_once_and_permanent_fallback (env : RedisEnv)
    (s₀ : RedisState) (h : s₀.hasLua = none) :
    (checkLuaSupport env (checkLuaSupport env s₀).2 =
      ((checkLuaSupport env s₀).1, (checkLuaSupport env s₀).2)) ∧
    (checkLuaSupport env s₀).2.probes ≤ s₀.probes + 1 ∧
    (∀ s b, s.hasLua = some b → checkLuaSupport env s = (b, s)) ∧
    ((env.hasEval = false ∨ env.probeOk = false) →
      (checkLuaSupport env s₀).2.hasLua = some false ∧
      (∀ s : RedisState, s.hasLua = some false →
        incrementPath env s = (.fallback, s) ∧
        addTimestampPath env s = (.fallback, s))) := by
  have hcached : ∀ s b, s.hasLua = some b → checkLuaSupport env s = (b, s) := by
    intro s b hb
    simp [checkLuaSupport, hb]
  have hfirst :
      (checkLuaSupport env s₀).2.hasLua = some (checkLuaSupport env s₀).1 := by
    rcases henv : env.hasEval with _ | _ <;>
      rcases hp : env.probeOk with _ | _ <;>
        simp [checkLuaSupport, h, henv, hp]
  refine ⟨?_, ?_, hcached, ?_⟩
  · exact hcached _ _ hfirst
  · rcases henv : env.hasEval with _ | _ <;>
      rcases hp : env.probeOk with _ | _ <;>
        simp [checkLuaSupport, h, henv, hp]
  · intro hfail
    have hfalse : (checkLuaSupport env s₀).2.hasLua = some false := by
      rcases hfail with hfail | hfail <;>
        rcases hp : env.probeOk with _ | _ <;>
          rcases henv : env.hasEval with _ | _ <;>
            simp_all [checkLuaSupport, h]
    refine ⟨hfalse, ?_⟩
    intro s hs
    have := hcached s false hs
    constructor
    · simp [incrementPath, this]
    · by_cases hz : env.hasZops <;> simp [addTimestampPath, hz, this]

/-- Closed witness for `lua_probe_once_and_permanent_fallback`: a client
whose probe fails is cached as `false` after the first check. -/
theorem lua_probe_once_and_permanent_fallback_witness :
    (checkLuaSupport ⟨true, false, true⟩ ⟨none, 0⟩).2.hasLua = some false := by
  exact ((lua_probe_once_and_permanent_fallback ⟨true, false, true⟩
    ⟨none, 0⟩ rfl).2.2.2 (Or.inr rfl)).1

/-- JavaScript strings, modelled as lists of characters (the round-trip
claim is scoped to ASCII-safe identifiers, where the two coincide). -/
abbrev Str := List Char

/-- `Array.prototype.join(sep)` for a single-character separator. -/
def joinParts (c : Char) : List Str → Str
  | [] => []
  | [p] => p
  | p :: ps => p ++ c :: joinParts c ps

/-- `String.prototype.split(sep)` for a single-character separator. -/
def splitOnChar (c : Char) : Str → List Str
  | [] => [[]]
  | x :: xs =>
    let r := splitOnChar c xs
    if x = c then [] :: r
    else
      match r with
      | [] => [[x]]
      | h :: t => (x :: h) :: t

/-- An ASCII-safe identifier character: ASCII alphanumeric, underscore,
hyphen or dot — never one of the structural characters `:`, `&`, `=`. -/
def safeChar (ch : Char) : Bool :=
  ch.isAlphanum || ch = '_' || ch = '-' || ch = '.'

/-- An ASCII-safe identifier: nonempty, all characters safe. -/
def isIdent (s : Str) : Bool :=
  !s.isEmpty && s.all safeChar

/-- `'GET' | 'LIST'` of `CacheKeyOptions.method`. -/
inductive CacheMethod where
  | GET : CacheMethod
  | LIST : CacheMethod
deriving DecidableEq, Repr

/-- The string of a `CacheMethod`. -/
def CacheMethod.str : CacheMethod → Str
  | .GET => ['G', 'E', 'T']
  | .LIST => ['L', 'I', 'S', 'T']

/-- `CacheKeyOptions` (cache types): `params`/`query` model the JS record
objects as association lists in property order with distinct keys; `pfx` is
the source's `prefix` option (a reserved word in Lean). -/
structure CacheKeyOptions where
  tableName : Str
  method : CacheMethod
  params : List (Str × Str)
  query : List (Str × Str)
  keyFields : List Str
  userId : Option Str
  pfx : Option Str
deriving DecidableEq, Repr

/-- Property read `obj[key]` on an association list (absent reads as ""). -/
def lookupStr (m : List (Str × Str)) (k : Str) : Str :=
  match m.find? (fun p => p.1 = k) with
  | some p => p.2
  | none => []

/-- `Object.keys(obj).sort()`: the keys in lexicographic order. -/
def sortStrs (ks : List Str) : List Str :=
  List.insertionSort (· ≤ ·) ks

/-- `generateCacheKey` (key-generator lines 31-80): assemble
`prefix? : tableName : method : sortedParams? : sortedQuery? : user=userId?`
joined with `:`; params/query parts are `k=v` pairs joined with `&`, query
keys filtered to non-empty values and (when given) to `keyFields`. -/
def generateCacheKey (o : CacheKeyOptions) : Str :=
  let parts₀ : List Str :=
    match o.pfx with
    | some p => if p ≠ [] then [p] else []
    | none => []
  let parts₁ : List Str := parts₀ ++ [o.tableName, o.method.str]
  let parts₂ : List Str :=
    if o.params.length > 0 then
      parts₁ ++ [joinParts '&' ((sortStrs (o.params.map Prod.fst)).map
        (fun k => k ++ '=' :: lookupStr o.params k))]
    else parts₁
  let parts₃ : List Str :=
    if o.query.length > 0 then
      let queryKeys₀ := (o.query.map Prod.fst).filter
        (fun k => lookupStr o.query k ≠ [])
      let queryKeys₁ :=
        if o.keyFields.length > 0 then
          queryKeys₀.filter (fun k => o.keyFields.contains k)
        else queryKeys₀
      if queryKeys₁.length > 0 then
        parts₂ ++ [joinParts '&' ((sortStrs queryKeys₁).map
          (fun k => k ++ '=' :: lookupStr o.query k))]
      else parts₂
    else parts₂
  let parts₄ : List Str :=
    match o.userId with
    | some u => if u ≠ [] then parts₄' parts₃ u else parts₃
    | none => parts₃
  joinParts ':' parts₄
where
  /-- `parts.push('user=' + userId)`. -/
  parts₄' (parts : List Str) (u : Str) : List Str :=
    parts ++ [['u', 's', 'e', 'r', '='] ++ u]

/-- The result record of `parseCacheKey`. -/
structure ParsedCacheKey where
  pfx : Option Str
  tableName : Str
  method : Str
  params : Option (List (Str × Str))
  query : Option (List (Str × Str))
  userId : Option Str
deriving DecidableEq, Repr

/-- `parsed[k] = v` on a JS object modelled as an association list:
overwrite in place when the key exists, else append. -/
def objSet (m : List (Str × Str)) (k v : Str) : List (Str × Str) :=
  if m.any (fun p => p.1 = k) then
    m.map (fun p => if p.1 = k then (k, v) else p)
  else m ++ [(k, v)]

/-- The `key=value` pair-parsing loop of `parseCacheKey` (lines 230-239):
split on `&`, then each pair on `=`, keeping the first two components and
skipping pairs with an empty key or no `=`. -/
def parsePart (part : Str) : List (Str × Str) :=
  (splitOnChar '&' part).foldl
    (fun acc pair =>
      match splitOnChar '=' pair with
      | k :: v :: _ => if k ≠ [] then objSet acc k v else acc
      | _ => acc)
    []

/-- The known method strings checked by `parseCacheKey`. -/
def methodStrs : List Str := [['G', 'E', 'T'], ['L', 'I', 'S', 'T']]

/-- The per-part loop body of `parseCacheKey` (lines 223-251): a
`user=`-prefixed part sets `userId`; a part containing `=` becomes `params`
or `query` (params first for GET, query first for LIST, then whichever is
unset); anything else is skipped. -/
def parseStep (method : Str) (r : ParsedCacheKey) (part : Str) :
    ParsedCacheKey :=
  if (['u', 's', 'e', 'r', '=']).isPrefixOf part then
    { r with userId := some (part.drop 5) }
  else if part.contains '=' then
    let parsed := parsePart part
    if method = ['G', 'E', 'T'] ∧ r.params = none then
      { r with params := some parsed }
    else if method = ['L', 'I', 'S', 'T'] ∧ r.query = none then
      { r with query := some parsed }
    else if r.params = none then
      { r with params := some parsed }
    else
      { r with query := some parsed }
  else r

/-- `parseCacheKey` (key-generator lines 191-254): split on `:`, detect a
prefix (more than two parts and the second not a known method), read table
name and method, then fold the remaining parts with `parseStep`. -/
def parseCacheKey (key : Str) : ParsedCacheKey :=
  let parts := splitOnChar ':' key
  let withPfx :=
    decide (parts.length > 2) && !(methodStrs.contains (parts.getD 1 []))
  let pfxVal : Option Str := if withPfx then some (parts.getD 0 []) else none
  let tableName := parts.getD (if withPfx then 1 else 0) []
  let method := parts.getD (if withPfx then 2 else 1) []
  let rest := parts.drop (if withPfx then 3 else 2)
  rest.foldl (parseStep method)
    { pfx := pfxVal, tableName := tableName, method := method,
      params := none, query := none, userId := none }

theorem splitOnChar_ne_nil (c : Char) (s : Str) : splitOnChar c s ≠ [] := by
  cases s with
  | nil => simp [splitOnChar]
  | cons x xs =>
    simp only [splitOnChar]
    by_cases h : x = c
    · simp [h]
    · simp only [h, if_false]
      rcases splitOnChar c xs with _ | ⟨p, ps⟩ <;> simp

theorem splitOnChar_no_sep (c : Char) (p : Str) (hp : ∀ ch ∈ p, ch ≠ c) :
    splitOnChar c p = [p] := by
  induction p with
  | nil => rfl
  | cons x xs ih =>
    have hx : x ≠ c := hp x (List.mem_cons_self x xs)
    have hxs := ih (fun ch hch => hp ch (List.mem_cons_of_mem _ hch))
    simp [splitOnChar, hx, hxs]

theorem splitOnChar_append_sep (c : Char) (p rest : Str)
    (hp : ∀ ch ∈ p, ch ≠ c) :
    splitOnChar c (p ++ c :: rest) = p :: splitOnChar c rest := by
  induction p with
  | nil => simp [splitOnChar]
  | cons x xs ih =>
    have hx : x ≠ c := hp x (List.mem_cons_self x xs)
    have hxs := ih (fun ch hch => hp ch (List.mem_cons_of_mem _ hch))
    simp [splitOnChar, hx, hxs]

theorem splitOnChar_joinParts (c : Char) (ps : List Str) (hne : ps ≠ [])
    (hfree : ∀ p ∈ ps, ∀ ch ∈ p, ch ≠ c) :
    splitOnChar c (joinParts c ps) = ps := by
  induction ps with
  | nil => exact absurd rfl hne
  | cons p ps ih =>
    rcases ps with _ | ⟨q, qs⟩
    · exact splitOnChar_no_sep c p (hfree p (List.mem_cons_self p _))
    · have hjoin : joinParts c (p :: q :: qs) = p ++ c :: joinParts c (q :: qs) := rfl
      rw [hjoin,
        splitOnChar_append_sep c p _ (hfree p (List.mem_cons_self p _)),
        ih (by simp) (fun r hr ch hch => hfree r (List.mem_cons_of_mem _ hr) ch hch)]

theorem safeChar_structural (ch : Char) (h : safeChar ch = true) :
    ch ≠ ':' ∧ ch ≠ '&' ∧ ch ≠ '=' := by
  refine ⟨?_, ?_, ?_⟩ <;> rintro rfl <;> revert h <;> decide

theorem isIdent_chars (s : Str) (h : isIdent s = true) :
    ∀ ch ∈ s, safeChar ch = true := by
  intro ch hch
  have := (Bool.and_eq_true_iff.1 h).2
  exact List.all_eq_true.1 this ch hch

theorem isIdent_ne_nil (s : Str) (h : isIdent s = true) : s ≠ [] := by
  intro hs
  subst hs
  simp [isIdent] at h

theorem joinParts_chars (c : Char) (ps : List Str) (P : Char → Prop)
    (hc : P c) (hps : ∀ p ∈ ps, ∀ ch ∈ p, P ch) :
    ∀ ch ∈ joinParts c ps, P ch := by
  induction ps with
  | nil => simp [joinParts]
  | cons p ps ih =>
    rcases ps with _ | ⟨q, qs⟩
    · simpa [joinParts] using hps p (List.mem_cons_self p _)
    · intro ch hch
      rw [show joinParts c (p :: q :: qs) = p ++ c :: joinParts c (q :: qs)
        from rfl] at hch
      rcases List.mem_append.1 hch with h | h
      · exact hps p (List.mem_cons_self p _) ch h
      · rcases List.mem_cons.1 h with h | h
        · exact h ▸ hc
        · exact ih (fun r hr => hps r (List.mem_cons_of_mem _ hr)) ch h

theorem lookupStr_self (pairs : List (Str × Str)) (p : Str × Str)
    (hmem : p ∈ pairs)
    (hd : (pairs.map Prod.fst).Pairwise (· ≠ ·)) :
    lookupStr pairs p.1 = p.2 := by
  induction pairs with
  | nil => simp at hmem
  | cons q qs ih =>
    rcases List.mem_cons.1 hmem with h | h
    · subst h
      simp [lookupStr, List.find?]
    · have hq : q.1 ≠ p.1 := by
        have := (List.pairwise_cons.1 hd).1 p.1 (List.mem_map_of_mem Prod.fst h)
        exact this
      have ih' := ih h (List.pairwise_cons.1 hd).2
      simp only [lookupStr, List.find?] at ih' ⊢
      have : (decide (q.1 = p.1)) = false := by simpa using hq
      rw [this]
      exact ih'

theorem sortStrs_sorted_keys (ks : List Str)
    (hs : ks.Pairwise (· < ·)) : sortStrs ks = ks := by
  exact List.Sorted.insertionSort_eq (hs.imp le_of_lt)

theorem map_enc_keys (pairs : List (Str × Str))
    (hd : (pairs.map Prod.fst).Pairwise (· ≠ ·)) :
    (pairs.map Prod.fst).map (fun k => k ++ '=' :: lookupStr pairs k) =
      pairs.map (fun p => p.1 ++ '=' :: p.2) := by
  rw [List.map_map]
  apply List.map_congr_left
  intro p hp
  simp only [Function.comp_apply]
  rw [lookupStr_self pairs p hp hd]

theorem objSet_new (m : List (Str × Str)) (k v : Str)
    (h : ∀ q ∈ m, q.1 ≠ k) : objSet m k v = m ++ [(k, v)] := by
  have : m.any (fun p => decide (p.1 = k)) = false := by
    rw [List.any_eq_false]
    intro q hq
    simpa using h q hq
  simp only [objSet, this]
  simp

theorem foldl_parsePairs (step : List (Str × Str) → Str → List (Str × Str))
    (hstep : step = fun acc pair =>
      match splitOnChar '=' pair with
      | k :: v :: _ => if k ≠ [] then objSet acc k v else acc
      | _ => acc) :
    ∀ (pairs : List (Str × Str)) (acc : List (Str × Str)),
      (∀ p ∈ pairs, isIdent p.1 = true ∧ isIdent p.2 = true) →
      (pairs.map Prod.fst).Pairwise (· ≠ ·) →
      (∀ p ∈ pairs, ∀ q ∈ acc, q.1 ≠ p.1) →
      (pairs.map (fun p => p.1 ++ '=' :: p.2)).foldl step acc = acc ++ pairs := by
  intro pairs
  induction pairs with
  | nil => intro acc _ _ _; simp
  | cons p ps ih =>
    intro acc hid hd hdisj
    have hidp := hid p (List.mem_cons_self p _)
    have hsplit : splitOnChar '=' (p.1 ++ '=' :: p.2) = [p.1, p.2] := by
      rw [splitOnChar_append_sep '=' p.1 p.2
        (fun ch hch => (safeChar_structural ch
          (isIdent_chars p.1 hidp.1 ch hch)).2.2),
        splitOnChar_no_sep '=' p.2
          (fun ch hch => (safeChar_structural ch
            (isIdent_chars p.2 hidp.2 ch hch)).2.2)]
    have hk : p.1 ≠ [] := isIdent_ne_nil p.1 hidp.1
    have hobj : objSet acc p.1 p.2 = acc ++ [p] := by
      rw [objSet_new acc p.1 p.2 (fun q hq => hdisj p (List.mem_cons_self p _) q hq)]
    have hstep₁ : step acc (p.1 ++ '=' :: p.2) = acc ++ [p] := by
      rw [hstep]
      simp only [hsplit]
      rw [if_pos hk]
      exact hobj
    simp only [List.map_cons, List.foldl_cons, hstep₁]
    rw [ih (acc ++ [p])
      (fun q hq => hid q (List.mem_cons_of_mem _ hq))
      (List.pairwise_cons.1 hd).2
      ?_]
    · simp
    · intro r hr q hq
      rcases List.mem_append.1 hq with h | h
      · exact hdisj r (List.mem_cons_of_mem _ hr) q h
      · rcases List.mem_singleton.1 h with rfl
        exact (List.pairwise_cons.1 hd).1 r.1 (List.mem_map_of_mem Prod.fst hr)

theorem parsePart_enc (pairs : List (Str × Str)) (hne : pairs ≠ [])
    (hid : ∀ p ∈ pairs, isIdent p.1 = true ∧ isIdent p.2 = true)
    (hd : (pairs.map Prod.fst).Pairwise (· ≠ ·)) :
    parsePart (joinParts '&' (pairs.map (fun p => p.1 ++ '=' :: p.2))) =
      pairs := by
  unfold parsePart
  rw [splitOnChar_joinParts '&' _ (by simpa using hne) ?_]
  · exact foldl_parsePairs _ rfl pairs [] hid hd (by simp)
  · intro part hpart ch hch
    rcases List.mem_map.1 hpart with ⟨p, hp, rfl⟩
    have hidp := hid p hp
    rcases List.mem_append.1 hch with h | h
    · exact (safeChar_structural ch (isIdent_chars p.1 hidp.1 ch h)).2.1
    · rcases List.mem_cons.1 h with rfl | h
      · decide
      · exact (safeChar_structural ch (isIdent_chars p.2 hidp.2 ch h)).2.1

theorem user_marker_not_prefix (k rest : Str)
    (hk : ∀ ch ∈ k, safeChar ch = true)
    (hne : k ≠ ['u', 's', 'e', 'r']) :
    (['u', 's', 'e', 'r', '=']).isPrefixOf (k ++ '=' :: rest) = false := by
  rw [Bool.eq_false_iff]
  intro h
  rw [ List.isPrefixOf_iff_prefix] at h
  rcases k with _ | ⟨c1, _ | ⟨c2, _ | ⟨c3, _ | ⟨c4, _ | ⟨c5, k'⟩⟩⟩⟩⟩
  · simp only [List.nil_append, List.cons_prefix_cons] at h
    exact absurd h.1 (by decide)
  · simp only [List.cons_append, List.nil_append, List.cons_prefix_cons] at h
    exact absurd h.2.1 (by decide)
  · simp only [List.cons_append, List.nil_append, List.cons_prefix_cons] at h
    exact absurd h.2.2.1 (by decide)
  · simp only [List.cons_append, List.nil_append, List.cons_prefix_cons] at h
    exact absurd h.2.2.2.1 (by decide)
  · simp only [List.cons_append, List.nil_append, List.cons_prefix_cons] at h
    obtain ⟨h1, h2, h3, h4, -⟩ := h
    exact hne (by rw [← h1, ← h2, ← h3, ← h4])
  · simp only [List.cons_append, List.cons_prefix_cons] at h
    have h5 : ('=' : Char) = c5 := h.2.2.2.2.1
    have : safeChar c5 = true := hk c5 (by simp)
    rw [← h5] at this
    exact absurd this (by decide)

theorem user_marker_is_prefix (u : Str) :
    (['u', 's', 'e', 'r', '=']).isPrefixOf
      (['u', 's', 'e', 'r', '='] ++ u) = true := by
  rw [ List.isPrefixOf_iff_prefix]
  exact List.prefix_append _ _

theorem user_marker_drop (u : Str) :
    (['u', 's', 'e', 'r', '='] ++ u).drop 5 = u := rfl

theorem joinParts_cons_shape (c : Char) (x : Str) (xs : List Str) :
    ∃ rest, joinParts c (x :: xs) = x ++ rest := by
  rcases xs with _ | ⟨y, ys⟩
  · exact ⟨[], by simp [joinParts]⟩
  · exact ⟨c :: joinParts c (y :: ys), rfl⟩

theorem enc_part_shape (pairs : List (Str × Str)) (p : Str × Str)
    (hhead : pairs.head? = some p) :
    ∃ tail, joinParts '&' (pairs.map (fun q => q.1 ++ '=' :: q.2)) =
      p.1 ++ '=' :: tail := by
  rcases pairs with _ | ⟨q, qs⟩
  · simp at hhead
  · have hq : q = p := by simpa using hhead
    subst hq
    obtain ⟨rest, hrest⟩ := joinParts_cons_shape '&'
      (q.1 ++ '=' :: q.2) (qs.map (fun r => r.1 ++ '=' :: r.2))
    refine ⟨q.2 ++ rest, ?_⟩
    simpa [List.append_assoc] using hrest

theorem contains_eq_of_shape (k tail : Str) :
    (k ++ '=' :: tail).contains '=' = true := by
  simp

/-- `k=v` pairs of an association list encoded and joined with `&`. -/
def encPairs (pairs : List (Str × Str)) : Str :=
  joinParts '&' (pairs.map (fun p => p.1 ++ '=' :: p.2))

theorem parseStep_user (method : Str) (r : ParsedCacheKey) (u : Str) :
    parseStep method r ('u' :: 's' :: 'e' :: 'r' :: '=' :: u) =
      { r with userId := some u } := by
  have h1 : (['u', 's', 'e', 'r', '=']).isPrefixOf
      ('u' :: 's' :: 'e' :: 'r' :: '=' :: u) = true := user_marker_is_prefix u
  simp [parseStep, h1]

theorem parseStep_skip_user (method : Str) (r : ParsedCacheKey)
    (pairs : List (Str × Str)) (p : Str × Str)
    (hhead : pairs.head? = some p)
    (hid : ∀ q ∈ pairs, isIdent q.1 = true ∧ isIdent q.2 = true)
    (hfirst : p.1 ≠ ['u', 's', 'e', 'r']) :
    ∃ tail, encPairs pairs = p.1 ++ '=' :: tail ∧
      (['u', 's', 'e', 'r', '=']).isPrefixOf (encPairs pairs) = false ∧
      (encPairs pairs).contains '=' = true := by
  obtain ⟨tail, htail⟩ := enc_part_shape pairs p hhead
  have hp : p ∈ pairs := by
    rcases pairs with _ | ⟨q, qs⟩
    · simp at hhead
    · have : q = p := by simpa using hhead
      exact this ▸ List.mem_cons_self q qs
  have htail' : encPairs pairs = p.1 ++ '=' :: tail := htail
  refine ⟨tail, htail', ?_, ?_⟩
  · rw [htail']
    exact user_marker_not_prefix p.1 tail
      (isIdent_chars p.1 (hid p hp).1) hfirst
  · rw [htail']
    exact contains_eq_of_shape p.1 tail

theorem parseStep_disc_GET (r : ParsedCacheKey) (pairs : List (Str × Str))
    (p : Str × Str) (hhead : pairs.head? = some p)
    (hid : ∀ q ∈ pairs, isIdent q.1 = true ∧ isIdent q.2 = true)
    (hd : (pairs.map Prod.fst).Pairwise (· ≠ ·))
    (hfirst : p.1 ≠ ['u', 's', 'e', 'r'])
    (hparams : r.params = none) :
    parseStep ['G', 'E', 'T'] r (encPairs pairs) =
      { r with params := some pairs } := by
  obtain ⟨tail, -, hnp, hct⟩ :=
    parseStep_skip_user [] r pairs p hhead hid hfirst
  have hne : pairs ≠ [] := by
    rcases pairs with _ | _
    · simp at hhead
    · simp
  have hpp : parsePart (encPairs pairs) = pairs :=
    parsePart_enc pairs hne hid hd
  have hmem : ('=' : Char) ∈ encPairs pairs := by simpa using hct
  simp [parseStep, hnp, hmem, hpp, hparams]

theorem parseStep_disc_LIST (r : ParsedCacheKey) (pairs : List (Str × Str))
    (p : Str × Str) (hhead : pairs.head? = some p)
    (hid : ∀ q ∈ pairs, isIdent q.1 = true ∧ isIdent q.2 = true)
    (hd : (pairs.map Prod.fst).Pairwise (· ≠ ·))
    (hfirst : p.1 ≠ ['u', 's', 'e', 'r'])
    (hquery : r.query = none) :
    parseStep ['L', 'I', 'S', 'T'] r (encPairs pairs) =
      { r with query := some pairs } := by
  obtain ⟨tail, -, hnp, hct⟩ :=
    parseStep_skip_user [] r pairs p hhead hid hfirst
  have hne : pairs ≠ [] := by
    rcases pairs with _ | _
    · simp at hhead
    · simp
  have hpp : parsePart (encPairs pairs) = pairs :=
    parsePart_enc pairs hne hid hd
  have hmem : ('=' : Char) ∈ encPairs pairs := by simpa using hct
  have hml : (['L', 'I', 'S', 'T'] : Str) ≠ ['G', 'E', 'T'] := by decide
  simp [parseStep, hnp, hmem, hpp, hquery, hml]

theorem parseCacheKey_header (pfxL : List Str) (tn m : Str) (rest : List Str)
    (hfree : ∀ p ∈ pfxL ++ tn :: m :: rest, ∀ ch ∈ p, ch ≠ ':')
    (hshape : pfxL = [] ∨ ∃ p, pfxL = [p])
    (hm : m ∈ methodStrs)
    (htn : pfxL = [] ∨ tn ∉ methodStrs) :
    parseCacheKey (joinParts ':' (pfxL ++ tn :: m :: rest)) =
      rest.foldl (parseStep m)
        { pfx := pfxL.head?, tableName := tn, method := m,
          params := none, query := none, userId := none } := by
  rcases hshape with rfl | ⟨p, rfl⟩
  · have hsplit : splitOnChar ':' (joinParts ':' (tn :: m :: rest)) =
        tn :: m :: rest :=
      splitOnChar_joinParts ':' _ (by simp) (by simpa using hfree)
    unfold parseCacheKey
    simp [hsplit, hm]
  · have hsplit : splitOnChar ':' (joinParts ':' (p :: tn :: m :: rest)) =
        p :: tn :: m :: rest :=
      splitOnChar_joinParts ':' _ (by simp) (by simpa using hfree)
    have htn' : tn ∉ methodStrs := by
      rcases htn with h | h
      · simp at h
      · exact h
    have hlen : 2 < (p :: tn :: m :: rest).length := by
      simp only [List.length_cons]
      omega
    unfold parseCacheKey
    simp [hsplit, htn', hlen]

theorem foldl_parseStep_header_fields (m : Str) (parts : List Str) :
    ∀ init : ParsedCacheKey,
      ((parts.foldl (parseStep m) init).pfx = init.pfx ∧
       (parts.foldl (parseStep m) init).tableName = init.tableName ∧
       (parts.foldl (parseStep m) init).method = init.method) := by
  induction parts with
  | nil => intro init; simp
  | cons a parts ih =>
    intro init
    have hstep : (parseStep m init a).pfx = init.pfx ∧
        (parseStep m init a).tableName = init.tableName ∧
        (parseStep m init a).method = init.method := by
      unfold parseStep
      split
      · simp
      · split
        · split
          · simp
          · split
            · simp
            · split <;> simp
        · simp
    obtain ⟨h1, h2, h3⟩ := hstep
    obtain ⟨g1, g2, g3⟩ := ih (parseStep m init a)
    exact ⟨by rw [List.foldl_cons, g1, h1],
           by rw [List.foldl_cons, g2, h2],
           by rw [List.foldl_cons, g3, h3]⟩

theorem lookupStr_ne_nil (pairs : List (Str × Str)) (k : Str)
    (hid : ∀ p ∈ pairs, isIdent p.1 = true ∧ isIdent p.2 = true)
    (hd : (pairs.map Prod.fst).Pairwise (· ≠ ·))
    (hk : k ∈ pairs.map Prod.fst) : lookupStr pairs k ≠ [] := by
  rcases List.mem_map.1 hk with ⟨p, hp, rfl⟩
  rw [lookupStr_self pairs p hp hd]
  exact isIdent_ne_nil p.2 (hid p hp).2

theorem generateCacheKey_parts (o : CacheKeyOptions)
    (hkf : o.keyFields = [])
    (hparams_id : ∀ p ∈ o.params, isIdent p.1 = true ∧ isIdent p.2 = true)
    (hparams_sorted : (o.params.map Prod.fst).Pairwise (· < ·))
    (hquery_id : ∀ p ∈ o.query, isIdent p.1 = true ∧ isIdent p.2 = true)
    (hquery_sorted : (o.query.map Prod.fst).Pairwise (· < ·))
    (hpfx : ∀ p, o.pfx = some p → p ≠ [])
    (huid : ∀ u, o.userId = some u → u ≠ []) :
    generateCacheKey o = joinParts ':'
      ((match o.pfx with | some p => [p] | none => []) ++
        o.tableName :: o.method.str ::
        ((if o.params = [] then [] else [encPairs o.params]) ++
          (if o.query = [] then [] else [encPairs o.query]) ++
          (match o.userId with
           | some u => [['u', 's', 'e', 'r', '='] ++ u]
           | none => []))) := by
  have hpd : (o.params.map Prod.fst).Pairwise (· ≠ ·) :=
    hparams_sorted.imp (fun h => ne_of_lt h)
  have hqd : (o.query.map Prod.fst).Pairwise (· ≠ ·) :=
    hquery_sorted.imp (fun h => ne_of_lt h)
  have hparamsPart : o.params ≠ [] →
      joinParts '&' ((sortStrs (o.params.map Prod.fst)).map
        (fun k => k ++ '=' :: lookupStr o.params k)) = encPairs o.params := by
    intro _
    rw [sortStrs_sorted_keys _ hparams_sorted, map_enc_keys _ hpd]
    rfl
  have hqkeys : (o.query.map Prod.fst).filter
      (fun k => !decide (lookupStr o.query k = [])) = o.query.map Prod.fst := by
    rw [List.filter_eq_self]
    intro k hk
    simpa using lookupStr_ne_nil o.query k hquery_id hqd hk
  have hqueryPart : o.query ≠ [] →
      joinParts '&' ((sortStrs (o.query.map Prod.fst)).map
        (fun k => k ++ '=' :: lookupStr o.query k)) = encPairs o.query := by
    intro _
    rw [sortStrs_sorted_keys _ hquery_sorted, map_enc_keys _ hqd]
    rfl
  unfold generateCacheKey
  rw [hkf]
  by_cases hp : o.params = []
  · by_cases hq : o.query = []
    · rcases ho : o.pfx with _ | p <;> rcases hu : o.userId with _ | u <;>
        simp [hp, hq, ho, hu, generateCacheKey.parts₄',
          huid _ , hpfx _ ]
    · have hqlen : o.query.length > 0 := List.length_pos.2 hq
      have hqklen : 0 < ((o.query.map Prod.fst).filter
          (fun k => !decide (lookupStr o.query k = []))).length := by
        rw [hqkeys]
        simpa [List.length_pos] using hq
      rcases ho : o.pfx with _ | p <;> rcases hu : o.userId with _ | u <;>
        simp [hp, hq, hqlen, hqklen, hqkeys, hqueryPart hq, ho, hu,
          generateCacheKey.parts₄', huid _ , hpfx _ ]
  · have hplen : o.params.length > 0 := List.length_pos.2 hp
    by_cases hq : o.query = []
    · rcases ho : o.pfx with _ | p <;> rcases hu : o.userId with _ | u <;>
        simp [hp, hq, hplen, hparamsPart hp, ho, hu,
          generateCacheKey.parts₄', huid _ , hpfx _ ]
    · have hqlen : o.query.length > 0 := List.length_pos.2 hq
      have hqklen : 0 < ((o.query.map Prod.fst).filter
          (fun k => !decide (lookupStr o.query k = []))).length := by
        rw [hqkeys]
        simpa [List.length_pos] using hq
      rcases ho : o.pfx with _ | p <;> rcases hu : o.userId with _ | u <;>
        simp [hp, hq, hplen, hqlen, hqklen, hqkeys, hparamsPart hp,
          hqueryPart hq, ho, hu, generateCacheKey.parts₄',
          huid _ , hpfx _ ]

/-- The concrete ASCII-safe options on which the cache-key round trip loses
information: a GET key with `params = {user: "7"}`. -/
def collidingOptions : CacheKeyOptions :=
  { tableName := ['u', 's', 'e', 'r', 's'], method := .GET,
    params := [(['u', 's', 'e', 'r'], ['7'])], query := [], keyFields := [],
    userId := none, pfx := none }

/-- C8 counterexample: for the ASCII-safe options
`{tableName: "users", method: GET, params: {user: "7"}}` the generated key is
`users:GET:user=7`, which `parseCacheKey` reads back as `userId = "7"` with
no params at all — the params discriminator is lost and a userId is invented,
so the round trip is not information-preserving as claimed. -/
theorem cache_key_roundtrip_counterexample :
    (∀ p ∈ collidingOptions.params,
        isIdent p.1 = true ∧ isIdent p.2 = true) ∧
    isIdent collidingOptions.tableName = true ∧
    (parseCacheKey (generateCacheKey collidingOptions)).params = none ∧
    (parseCacheKey (generateCacheKey collidingOptions)).userId = some ['7'] ∧
    collidingOptions.params ≠ [] ∧ collidingOptions.userId = none := by
  refine ⟨by decide, by decide, by decide, by decide, by decide, by decide⟩

/-- C8 (amended): for options built from ASCII-safe identifiers,
`parseCacheKey (generateCacheKey options)` reproduces the prefix, table name,
method, userId and the `key=value` discriminators (params for GET, query for
LIST, given as key-sorted association lists), provided additionally that
(a) when a prefix is present the table name is not the reserved string
`GET` or `LIST`, and (b) the lexicographically first params/query key is not
the reserved identifier `user`. -/
theorem parse_generate_roundtrip (o : CacheKeyOptions)
    (htn : isIdent o.tableName = true)
    (hpfx : ∀ p, o.pfx = some p → isIdent p = true)
    (hpfx_tn : o.pfx ≠ none → o.tableName ∉ methodStrs)
    (huid : ∀ u, o.userId = some u → isIdent u = true)
    (hkf : o.keyFields = [])
    (hscope_g : o.method = .GET → o.query = [])
    (hscope_l : o.method = .LIST → o.params = [])
    (hparams_id : ∀ p ∈ o.params, isIdent p.1 = true ∧ isIdent p.2 = true)
    (hparams_sorted : (o.params.map Prod.fst).Pairwise (· < ·))
    (hparams_first : ∀ p, o.params.head? = some p →
      p.1 ≠ ['u', 's', 'e', 'r'])
    (hquery_id : ∀ p ∈ o.query, isIdent p.1 = true ∧ isIdent p.2 = true)
    (hquery_sorted : (o.query.map Prod.fst).Pairwise (· < ·))
    (hquery_first : ∀ p, o.query.head? = some p →
      p.1 ≠ ['u', 's', 'e', 'r']) :
    (parseCacheKey (generateCacheKey o)).pfx = o.pfx ∧
    (parseCacheKey (generateCacheKey o)).tableName = o.tableName ∧
    (parseCacheKey (generateCacheKey o)).method = o.method.str ∧
    (parseCacheKey (generateCacheKey o)).userId = o.userId ∧
    (parseCacheKey (generateCacheKey o)).params.getD [] = o.params ∧
    (parseCacheKey (generateCacheKey o)).query.getD [] = o.query := by
  have hpfx_ne : ∀ p, o.pfx = some p → p ≠ [] :=
    fun p hp => isIdent_ne_nil p (hpfx p hp)
  have huid_ne : ∀ u, o.userId = some u → u ≠ [] :=
    fun u hu => isIdent_ne_nil u (huid u hu)
  rw [generateCacheKey_parts o hkf hparams_id hparams_sorted hquery_id
    hquery_sorted hpfx_ne huid_ne]
  generalize hpfxL :
    (match o.pfx with | some p => [p] | none => ([] : List Str)) = pfxL
  have hshape : pfxL = [] ∨ ∃ p, pfxL = [p] := by
    rcases ho : o.pfx with _ | p <;> simp only [ho] at hpfxL
    · exact Or.inl hpfxL.symm
    · exact Or.inr ⟨p, hpfxL.symm⟩
  have hheadpfx : pfxL.head? = o.pfx := by
    rcases ho : o.pfx with _ | p <;> simp only [ho] at hpfxL <;>
      rw [← hpfxL] <;> simp
  have hfreePfx : ∀ part ∈ pfxL, ∀ ch ∈ part, ch ≠ ':' := by
    rcases ho : o.pfx with _ | p <;> simp only [ho] at hpfxL <;> rw [← hpfxL]
    · simp
    · intro part hpart ch hch
      have hep : part = p := List.mem_singleton.1 hpart
      rw [hep] at hch
      exact (safeChar_structural ch (isIdent_chars _ (hpfx p ho) ch hch)).1
  have htn_or : pfxL = [] ∨ o.tableName ∉ methodStrs := by
    rcases ho : o.pfx with _ | p <;> simp only [ho] at hpfxL
    · exact Or.inl hpfxL.symm
    · exact Or.inr (hpfx_tn (by simp [ho]))
  have htnfree : ∀ ch ∈ o.tableName, ch ≠ ':' := fun ch hch =>
    (safeChar_structural ch (isIdent_chars _ htn ch hch)).1
  have henc_free : ∀ (pairs : List (Str × Str)),
      (∀ p ∈ pairs, isIdent p.1 = true ∧ isIdent p.2 = true) →
      ∀ ch ∈ encPairs pairs, ch ≠ ':' := by
    intro pairs hid ch hch
    refine joinParts_chars '&' _ (fun c => c ≠ ':') (by decide) ?_ ch hch
    intro part hpart c hc
    rcases List.mem_map.1 hpart with ⟨p, hp, rfl⟩
    rcases List.mem_append.1 hc with h | h
    · exact (safeChar_structural c (isIdent_chars _ (hid p hp).1 c h)).1
    · rcases List.mem_cons.1 h with rfl | h
      · decide
      · exact (safeChar_structural c (isIdent_chars _ (hid p hp).2 c h)).1
  have huser_free : ∀ u, isIdent u = true →
      ∀ ch ∈ ['u', 's', 'e', 'r', '='] ++ u, ch ≠ ':' := by
    intro u hu ch hch
    rcases List.mem_append.1 hch with h | h
    · simp only [List.mem_cons, List.not_mem_nil, or_false] at h
      rcases h with rfl | rfl | rfl | rfl | rfl <;> decide
    · exact (safeChar_structural ch (isIdent_chars _ hu ch h)).1
  have hfree_all : ∀ (ms : Str), (∀ ch ∈ ms, ch ≠ ':') →
      ∀ (rest : List Str), (∀ part ∈ rest, ∀ ch ∈ part, ch ≠ ':') →
      ∀ part ∈ pfxL ++ o.tableName :: ms :: rest, ∀ ch ∈ part, ch ≠ ':' := by
    intro ms hms rest hrest part hpart
    rcases List.mem_append.1 hpart with h | h
    · exact hfreePfx part h
    · rcases List.mem_cons.1 h with rfl | h
      · exact htnfree
      · rcases List.mem_cons.1 h with rfl | h
        · exact hms
        · exact hrest part h
  have hGm : (['G', 'E', 'T'] : Str) ∈ methodStrs := by decide
  have hLm : (['L', 'I', 'S', 'T'] : Str) ∈ methodStrs := by decide
  rcases hmethod : o.method with _ | _
  · -- GET
    have hq : o.query = [] := hscope_g hmethod
    have e2 : (if o.query = [] then ([] : List Str)
        else [encPairs o.query]) = [] := by simp [hq]
    simp only [hmethod, CacheMethod.str, e2]
    by_cases hp : o.params = []
    · have e1 : (if o.params = [] then ([] : List Str)
          else [encPairs o.params]) = [] := by simp [hp]
      rcases hu : o.userId with _ | u
      · rw [e1]
        simp only [hu, List.append_nil, List.nil_append]
        rw [parseCacheKey_header pfxL o.tableName ['G', 'E', 'T'] []
          (hfree_all _ (by decide) [] (by simp)) hshape hGm htn_or]
        simp [hheadpfx, hu, hp, hq]
      · rw [e1]
        simp only [hu, List.append_nil, List.nil_append, List.cons_append,
          List.singleton_append]
        rw [parseCacheKey_header pfxL o.tableName ['G', 'E', 'T']
          ['u' :: 's' :: 'e' :: 'r' :: '=' :: u]
          (hfree_all _ (by decide) _
            (by intro part hpart
                rcases List.mem_singleton.1 hpart with rfl
                exact huser_free u (huid u hu)))
          hshape hGm htn_or]
        simp only [List.foldl_cons, List.foldl_nil, parseStep_user]
        simp [hheadpfx, hu, hp, hq]
    · obtain ⟨p0, hp0⟩ : ∃ p, o.params.head? = some p := by
        rcases hps : o.params with _ | ⟨q, qs⟩
        · exact absurd hps hp
        · exact ⟨q, by simp⟩
      have e1 : (if o.params = [] then ([] : List Str)
          else [encPairs o.params]) = [encPairs o.params] := by simp [hp]
      rcases hu : o.userId with _ | u
      · rw [e1]
        simp only [hu, List.append_nil, List.nil_append]
        rw [parseCacheKey_header pfxL o.tableName ['G', 'E', 'T']
          [encPairs o.params]
          (hfree_all _ (by decide) _
            (by intro part hpart
                rcases List.mem_singleton.1 hpart with rfl
                exact henc_free o.params hparams_id))
          hshape hGm htn_or]
        simp only [List.foldl_cons, List.foldl_nil]
        rw [parseStep_disc_GET _ o.params p0 hp0 hparams_id
          (hparams_sorted.imp (fun h => ne_of_lt h))
          (hparams_first p0 hp0) rfl]
        simp [hheadpfx, hu, hq]
      · rw [e1]
        simp only [hu, List.append_nil, List.nil_append, List.cons_append,
          List.singleton_append]
        rw [parseCacheKey_header pfxL o.tableName ['G', 'E', 'T']
          [encPairs o.params, 'u' :: 's' :: 'e' :: 'r' :: '=' :: u]
          (hfree_all _ (by decide) _
            (by intro part hpart
                rcases List.mem_cons.1 hpart with rfl | hpart
                · exact henc_free o.params hparams_id
                · rcases List.mem_singleton.1 hpart with rfl
                  exact huser_free u (huid u hu)))
          hshape hGm htn_or]
        simp only [List.foldl_cons, List.foldl_nil]
        rw [parseStep_disc_GET _ o.params p0 hp0 hparams_id
          (hparams_sorted.imp (fun h => ne_of_lt h))
          (hparams_first p0 hp0) rfl,
          parseStep_user]
        simp [hheadpfx, hu, hq]
  · -- LIST
    have hp : o.params = [] := hscope_l hmethod
    have e1 : (if o.params = [] then ([] : List Str)
        else [encPairs o.params]) = [] := by simp [hp]
    simp only [hmethod, CacheMethod.str, e1]
    by_cases hq : o.query = []
    · have e2 : (if o.query = [] then ([] : List Str)
          else [encPairs o.query]) = [] := by simp [hq]
      rcases hu : o.userId with _ | u
      · rw [e2]
        simp only [hu, List.append_nil, List.nil_append]
        rw [parseCacheKey_header pfxL o.tableName ['L', 'I', 'S', 'T'] []
          (hfree_all _ (by decide) [] (by simp)) hshape hLm htn_or]
        simp [hheadpfx, hu, hp, hq]
      · rw [e2]
        simp only [hu, List.append_nil, List.nil_append, List.cons_append,
          List.singleton_append]
        rw [parseCacheKey_header pfxL o.tableName ['L', 'I', 'S', 'T']
          ['u' :: 's' :: 'e' :: 'r' :: '=' :: u]
          (hfree_all _ (by decide) _
            (by intro part hpart
                rcases List.mem_singleton.1 hpart with rfl
                exact huser_free u (huid u hu)))
          hshape hLm htn_or]
        simp only [List.foldl_cons, List.foldl_nil, parseStep_user]
        simp [hheadpfx, hu, hp, hq]
    · obtain ⟨p0, hp0⟩ : ∃ p, o.query.head? = some p := by
        rcases hqs : o.query with _ | ⟨q, qs⟩
        · exact absurd hqs hq
        · exact ⟨q, by simp⟩
      have e2 : (if o.query = [] then ([] : List Str)
          else [encPairs o.query]) = [encPairs o.query] := by simp [hq]
      rcases hu : o.userId with _ | u
      · rw [e2]
        simp only [hu, List.append_nil, List.nil_append]
        rw [parseCacheKey_header pfxL o.tableName ['L', 'I', 'S', 'T']
          [encPairs o.query]
          (hfree_all _ (by decide) _
            (by intro part hpart
                rcases List.mem_singleton.1 hpart with rfl
                exact henc_free o.query hquery_id))
          hshape hLm htn_or]
        simp only [List.foldl_cons, List.foldl_nil]
        rw [parseStep_disc_LIST _ o.query p0 hp0 hquery_id
          (hquery_sorted.imp (fun h => ne_of_lt h))
          (hquery_first p0 hp0) rfl]
        simp [hheadpfx, hu, hp]
      · rw [e2]
        simp only [hu, List.append_nil, List.nil_append, List.cons_append,
          List.singleton_append]
        rw [parseCacheKey_header pfxL o.tableName ['L', 'I', 'S', 'T']
          [encPairs o.query, 'u' :: 's' :: 'e' :: 'r' :: '=' :: u]
          (hfree_all _ (by decide) _
            (by intro part hpart
                rcases List.mem_cons.1 hpart with rfl | hpart
                · exact henc_free o.query hquery_id
                · rcases List.mem_singleton.1 hpart with rfl
                  exact huser_free u (huid u hu)))
          hshape hLm htn_or]
        simp only [List.foldl_cons, List.foldl_nil]
        rw [parseStep_disc_LIST _ o.query p0 hp0 hquery_id
          (hquery_sorted.imp (fun h => ne_of_lt h))
          (hquery_first p0 hp0) rfl,
          parseStep_user]
        simp [hheadpfx, hu, hp]

/-- Concrete ASCII-safe options exercising every reconstructed field:
`{prefix: "pre", tableName: "users", method: GET, params: {id: "1"},
userId: "u7"}`. -/
def roundtripOptions : CacheKeyOptions :=
  { tableName := ['u', 's', 'e', 'r', 's'], method := .GET,
    params := [(['i', 'd'], ['1'])], query := [], keyFields := [],
    userId := some ['u', '7'], pfx := some ['p', 'r', 'e'] }

/-- Closed witness for `parse_generate_roundtrip` at `roundtripOptions`. -/
theorem parse_generate_roundtrip_witness :
    (parseCacheKey (generateCacheKey roundtripOptions)).pfx =
      roundtripOptions.pfx ∧
    (parseCacheKey (generateCacheKey roundtripOptions)).tableName =
      roundtripOptions.tableName ∧
    (parseCacheKey (generateCacheKey roundtripOptions)).method =
      roundtripOptions.method.str ∧
    (parseCacheKey (generateCacheKey roundtripOptions)).userId =
      roundtripOptions.userId ∧
    (parseCacheKey (generateCacheKey roundtripOptions)).params.getD [] =
      roundtripOptions.params ∧
    (parseCacheKey (generateCacheKey roundtripOptions)).query.getD [] =
      roundtripOptions.query :=
  parse_generate_roundtrip roundtripOptions (by decide)
    (fun p hp => by cases hp; decide)
    (fun _ => by decide)
    (fun u hu => by cases hu; decide)
    rfl
    (fun _ => rfl)
    (fun h => nomatch h)
    (by decide)
    (by decide)
    (fun p hp => by cases hp; decide)
    (by decide)
    (by decide)
    (fun p hp => nomatch hp)
